import Mathlib

/-! Formal model of the deduplication / quality-filtering / content-guardrail core of
the `shardwise` pipeline (source files `scripts/dedup_filter.py` and
`scripts/content_guardrails.py`), as a shallow embedding: Python `str` values are
`List Char`, Python floats arising from ratio arithmetic are modelled as `ℚ`,
Python `dict` / decoded-JSON values as an inductive `Json`, and Python exceptions as
`Except PyErr`.  External black boxes (SHA-256, the MinHash/LSH library, the
readability scorer and the regex engine) enter as explicit function parameters of the
corresponding definitions. -/

namespace Shardwise

/-- Worker for Python `str.split()` with no separator argument: split on runs of
whitespace, discarding empty pieces.  `acc` is the current in-progress token held in
reverse order. -/
def pySplitAux : List Char → List Char → List (List Char)
  | [], acc => if acc = [] then [] else [acc.reverse]
  | c :: cs, acc =>
    if c.isWhitespace then
      if acc = [] then pySplitAux cs []
      else acc.reverse :: pySplitAux cs []
    else pySplitAux cs (c :: acc)

/-- Python `text.split()`: whitespace tokenisation, empty tokens dropped. -/
def pySplit (s : List Char) : List (List Char) := pySplitAux s []

/-- Python `text.lower()` (modelled characterwise with `Char.toLower`). -/
def pyLower (s : List Char) : List Char := s.map Char.toLower

/-- Join a list of texts with a separator between consecutive ones (used below to
build a text that consists of a sentence repeated a number of times, the sentences
separated by a single space). -/
def joinSep (sep : List Char) : List (List Char) → List Char
  | [] => []
  | [x] => x
  | x :: y :: rest => x ++ sep ++ joinSep sep (y :: rest)

/-! Core of `scripts/dedup_filter.py` (`class DedupFilter`).  `compute_hash` is
SHA-256 of the UTF-8 bytes of the text; since two texts have equal UTF-8 encodings
exactly when they are equal, the hash is abstracted as a function
`hash : List Char → ℕ` into an opaque fingerprint domain; "hash collisions are
impossible" is the hypothesis `Function.Injective hash`. -/

/-- `DedupFilter.is_exact_duplicate` (dedup_filter.py lines 83-91): look the
fingerprint up in the `seen_hashes` set; on a hit return `true` leaving the set
unchanged, otherwise record the fingerprint and return `false`.  The pair returned is
(result, new `seen_hashes` state). -/
def is_exact_duplicate (hash : List Char → ℕ) (seen : Finset ℕ) (text : List Char) :
    Bool × Finset ℕ :=
  let h := hash text
  if h ∈ seen then (true, seen) else (false, insert h seen)

/-- `MinHashLSH.query` as used by `is_near_duplicate`: the keys of all previously
inserted sketches judged similar-above-threshold to `m`.  The similarity judgment of
the `datasketch` library is the abstract parameter `querySim`. -/
def lshQuery {κ Sketch : Type} (querySim : Sketch → Sketch → Bool)
    (entries : List (κ × Sketch)) (m : Sketch) : List κ :=
  (entries.filter (fun e => querySim m e.2)).map Prod.fst

/-- `DedupFilter.is_near_duplicate` (dedup_filter.py lines 93-111).  `mkSketch`
models `create_minhash` (the MinHash signature of the lower-cased token multiset);
the index (`self.lsh`) is `none` when near-dedup is disabled or the library is
unavailable, in which case the check returns `false` and touches nothing.  On a
non-empty query result return `true` and do not insert; otherwise insert the sketch
keyed by `chunk_id` and return `false`. -/
def is_near_duplicate {κ Sketch : Type} (mkSketch : List Char → Sketch)
    (querySim : Sketch → Sketch → Bool) (lsh : Option (List (κ × Sketch)))
    (text : List Char) (chunk_id : κ) : Bool × Option (List (κ × Sketch)) :=
  match lsh with
  | none => (false, none)
  | some entries =>
    let m := mkSketch text
    if (lshQuery querySim entries m).isEmpty then (false, some (entries ++ [(chunk_id, m)]))
    else (true, some entries)

/-- `DedupFilter.count_words` (dedup_filter.py lines 113-115). -/
def count_words (text : List Char) : ℕ := (pySplit text).length

/-- `DedupFilter.count_unique_words` (dedup_filter.py lines 117-120): number of
distinct lower-cased tokens. -/
def count_unique_words (text : List Char) : ℕ := (pySplit (pyLower text)).dedup.length

/-- The 3-gram list of `DedupFilter.calculate_repetition_ratio`
(`[tuple(words[i:i+3]) for i in range(len(words)-2)]`), a Python tuple of tokens
being modelled as a (3-element) list of tokens. -/
def pyTrigrams (ws : List (List Char)) : List (List (List Char)) :=
  (List.range (ws.length - 2)).map (fun i => (ws.drop i).take 3)

/-- `DedupFilter.calculate_repetition_ratio` (dedup_filter.py lines 122-136):
`0.0` when there are fewer than 10 lower-cased whitespace tokens, else
`1 - distinct 3-grams / total 3-grams`. -/
def calculate_repetition_ratio (text : List Char) : ℚ :=
  let ws := pySplit (pyLower text)
  if ws.length < 10 then 0
  else
    let tg := pyTrigrams ws
    if tg = [] then 0
    else 1 - ((tg.dedup.length : ℚ) / (tg.length : ℚ))

/-- `DedupFilter.calculate_alpha_ratio` (dedup_filter.py lines 138-144):
(alphabetic-or-whitespace characters) / (all characters), `0.0` on empty text. -/
def calculate_alpha_ratio (text : List Char) : ℚ :=
  if text = [] then 0
  else ((text.countP (fun c => c.isAlpha || c.isWhitespace) : ℚ) / (text.length : ℚ))

/-! Quality assessment (`DedupFilter.assess_quality`, dedup_filter.py lines 156-218).
Rejection reasons in the source are formatted f-strings embedding the offending value
and the threshold; they are modelled structurally as an inductive carrying the same
two numbers. -/

/-- The `quality` section of the pipeline configuration. -/
structure QualityConfig where
  min_words : ℕ
  max_words : ℕ
  min_unique_words_ratio : ℚ
  max_repetition_ratio : ℚ
  min_alpha_ratio : ℚ
  calculate_readability : Bool
  min_readability_score : ℚ
  deriving DecidableEq

/-- The `deduplication` section of the pipeline configuration (the `minhash`
sub-options live inside the abstract sketch parameters). -/
structure DedupConfig where
  exact_dedup : Bool
  near_dedup : Bool
  min_text_length : ℕ
  deriving DecidableEq

/-- The rejection reasons producible by `assess_quality`, each carrying the
offending value and the configured threshold exactly as the f-string does. -/
inductive QReason where
  | tooFewWords (n m : ℕ)
  | tooManyWords (n m : ℕ)
  | lowUniqueRatio (r m : ℚ)
  | highRepetition (r m : ℚ)
  | lowAlphaRatio (r m : ℚ)
  | lowReadability (r m : ℚ)
  deriving DecidableEq

/-- The metrics dictionary returned by `assess_quality` on a full pass
(`readability_score` is `None` when readability checking is disabled). -/
structure QMetrics where
  word_count : ℕ
  unique_words : ℕ
  unique_ratio : ℚ
  repetition_ratio : ℚ
  alpha_ratio : ℚ
  readability_score : Option ℚ
  deriving DecidableEq

/-- The dictionary returned by `assess_quality`: either `passed: False` with a
reason, or `passed: True` with the metrics. -/
inductive QualityResult where
  | fail (reason : QReason)
  | pass (metrics : QMetrics)
  deriving DecidableEq

/-- The `passed` entry of an `assess_quality` result. -/
def QualityResult.passed : QualityResult → Bool
  | .fail _ => false
  | .pass _ => true

/-- `DedupFilter.assess_quality` (dedup_filter.py lines 156-218).  `readability`
models `calculate_readability` (textstat's Flesch reading ease with the neutral
50.0 fallback folded in); it is only consulted when `qc.calculate_readability`. -/
def assess_quality (readability : List Char → ℚ) (qc : QualityConfig)
    (text : List Char) : QualityResult :=
  let word_count := count_words text
  if word_count < qc.min_words then .fail (.tooFewWords word_count qc.min_words)
  else if word_count > qc.max_words then .fail (.tooManyWords word_count qc.max_words)
  else
    let unique_words := count_unique_words text
    let unique_ratio : ℚ := if word_count > 0 then (unique_words : ℚ) / (word_count : ℚ) else 0
    if unique_ratio < qc.min_unique_words_ratio then
      .fail (.lowUniqueRatio unique_ratio qc.min_unique_words_ratio)
    else
      let repetition_ratio := calculate_repetition_ratio text
      if repetition_ratio > qc.max_repetition_ratio then
        .fail (.highRepetition repetition_ratio qc.max_repetition_ratio)
      else
        let alpha_ratio := calculate_alpha_ratio text
        if alpha_ratio < qc.min_alpha_ratio then
          .fail (.lowAlphaRatio alpha_ratio qc.min_alpha_ratio)
        else
          if qc.calculate_readability then
            let r := readability text
            if r < qc.min_readability_score then
              .fail (.lowReadability r qc.min_readability_score)
            else .pass ⟨word_count, unique_words, unique_ratio, repetition_ratio,
                        alpha_ratio, some r⟩
          else .pass ⟨word_count, unique_words, unique_ratio, repetition_ratio,
                      alpha_ratio, none⟩

/-! The per-chunk orchestration (`DedupFilter.process_chunk`, dedup_filter.py lines
220-276).  The chunk file's decoded JSON content is modelled by `Json`; the
`try/except` around reading and decoding the file is modelled by an `Option Json`
input (`none` = the read or decode raised).  Python exceptions raised by the body
*outside* that `try` block escape the call; they are modelled by `Except PyErr`. -/

/-- Decoded JSON values (Python objects as produced by `json.load`). -/
inductive Json where
  | null
  | bool (b : Bool)
  | num (q : ℚ)
  | str (s : List Char)
  | arr (xs : List Json)
  | obj (kvs : List (List Char × Json))

/-- Python exceptions that the body of `process_chunk` can raise. -/
inductive PyErr where
  | attributeError
  | typeError
  | keyError (k : List Char)
  deriving DecidableEq

/-- Key lookup in a Python dict modelled as an insertion-ordered association list
(keys are unique as produced by `json.load`). -/
def jsonLookup : List (List Char × Json) → List Char → Option Json
  | [], _ => none
  | (k, v) :: rest, key => if k = key then some v else jsonLookup rest key

/-- Python dict item assignment `d[key] = v`: overwrite in place when the key is
present, append otherwise (insertion order preserved). -/
def jsonSet (kvs : List (List Char × Json)) (key : List Char) (v : Json) :
    List (List Char × Json) :=
  if (jsonLookup kvs key).isSome then
    kvs.map (fun p => if p.1 = key then (key, v) else p)
  else kvs ++ [(key, v)]

/-- Python `len(x)` on a decoded JSON value (`TypeError` on values without a
length). -/
def pyLen : Json → Except PyErr ℕ
  | .str s => .ok s.length
  | .arr xs => .ok xs.length
  | .obj kvs => .ok kvs.length
  | _ => .error .typeError

/-- Coercion of the chunk's `text` value into a string: the string-only methods
applied to it (`text.encode`, `text.lower().split()`, …) raise `AttributeError` on
any non-string value that survives `len()`. -/
def asStr : Json → Except PyErr (List Char)
  | .str s => .ok s
  | _ => .error .attributeError

/-- The reason entry of a `process_chunk` verdict. -/
inductive VerdictReason where
  | readError
  | textTooShort
  | exactDuplicate
  | nearDuplicate
  | quality (r : QReason)
  deriving DecidableEq

/-- The dictionary returned by `process_chunk`: `{'keep': False, 'reason': …}` or
`{'keep': True, 'chunk': …}`. -/
inductive Verdict where
  | reject (reason : VerdictReason)
  | keep (chunk : Json)

/-- The mutable state of a `DedupFilter` instance: `seen_hashes` and the optional
MinHash LSH index (keyed by the raw chunk-id value). -/
structure FilterState (Sketch : Type) where
  seen_hashes : Finset ℕ
  lsh : Option (List (Json × Sketch))

/-- Metadata value written on a full pass: the quality-metrics dict with the
`passed` entry and `None` values stripped, in insertion order. -/
def metricsJson (m : QMetrics) : Json :=
  .obj ([("word_count".toList, Json.num m.word_count),
         ("unique_words".toList, Json.num m.unique_words),
         ("unique_ratio".toList, Json.num m.unique_ratio),
         ("repetition_ratio".toList, Json.num m.repetition_ratio),
         ("alpha_ratio".toList, Json.num m.alpha_ratio)] ++
        (match m.readability_score with
         | some r => [("readability_score".toList, Json.num r)]
         | none => []))

/-- The metadata update of dedup_filter.py lines 265-271:
`chunk['metadata']['quality_metrics'] = …`, `…['filtering_timestamp'] = now`,
`…['passed_filtering'] = True`.  Raises `KeyError` when the chunk has no
`metadata` key and `TypeError` when the `metadata` value is not a dict. -/
def updateChunk (kvs : List (List Char × Json)) (m : QMetrics) (now : List Char) :
    Except PyErr Json :=
  match jsonLookup kvs "metadata".toList with
  | none => .error (.keyError "metadata".toList)
  | some (.obj mkvs) =>
    let m1 := jsonSet mkvs "quality_metrics".toList (metricsJson m)
    let m2 := jsonSet m1 "filtering_timestamp".toList (.str now)
    let m3 := jsonSet m2 "passed_filtering".toList (.bool true)
    .ok (.obj (jsonSet kvs "metadata".toList (.obj m3)))
  | some _ => .error .typeError

/-- `DedupFilter.process_chunk` (dedup_filter.py lines 220-276).  `readResult` is
`none` when reading/decoding the chunk file raised (that exception is caught and
turned into the `Read error` verdict); otherwise it carries the decoded JSON value.
`now` models `datetime.now().isoformat()` and `chunkFileName` models
`str(chunk_file)`, the default chunk id. -/
def process_chunk {Sketch : Type} (hash : List Char → ℕ) (mkSketch : List Char → Sketch)
    (querySim : Sketch → Sketch → Bool) (readability : List Char → ℚ)
    (dc : DedupConfig) (qc : QualityConfig) (now chunkFileName : List Char)
    (st : FilterState Sketch) (readResult : Option Json) :
    Except PyErr (Verdict × FilterState Sketch) :=
  match readResult with
  | none => .ok (.reject .readError, st)
  | some (.obj kvs) =>
    let textJ := (jsonLookup kvs "text".toList).getD (.str [])
    let idJ := (jsonLookup kvs "id".toList).getD (.str chunkFileName)
    (pyLen textJ).bind fun n =>
    if n < dc.min_text_length then .ok (.reject .textTooShort, st)
    else
      (asStr textJ).bind fun text =>
      let step1 :=
        if dc.exact_dedup then is_exact_duplicate hash st.seen_hashes text
        else (false, st.seen_hashes)
      if step1.1 then .ok (.reject .exactDuplicate, ⟨step1.2, st.lsh⟩)
      else
        let step2 :=
          if dc.near_dedup then is_near_duplicate mkSketch querySim st.lsh text idJ
          else (false, st.lsh)
        if step2.1 then .ok (.reject .nearDuplicate, ⟨step1.2, step2.2⟩)
        else
          match assess_quality readability qc text with
          | .fail r => .ok (.reject (.quality r), ⟨step1.2, step2.2⟩)
          | .pass m =>
            (updateChunk kvs m now).bind fun chunk' =>
            .ok (.keep chunk', ⟨step1.2, step2.2⟩)
  | some _ => .error .attributeError

/-! Core of `scripts/content_guardrails.py` (`class ContentGuardrail`).  The
compiled regex pattern set and its `finditer` runs are abstracted as a function
`matcher : List Char → List (ℕ × ℕ)` producing the `(match.start(), match.end())`
pairs collected by `detect_protected_content`, in pattern-major order; the `re`
module guarantees `0 ≤ start ≤ end ≤ len(text)` for every produced pair, which
appears below as a hypothesis of the theorems. -/

/-- The `content_filter`/`guardrails` section of the configuration.  `action` is
`none` when the `action` key is absent from the configuration file; `context_chars`
likewise (`.get` defaults are applied at the use sites, as in the source). -/
structure GuardrailConfig where
  enabled : Bool
  action : Option (List Char)
  context_chars : Option ℕ
  deriving DecidableEq

/-- Result of `ContentGuardrail.detect_protected_content` (content_guardrails.py
lines 52-83), restricted to the fields consumed elsewhere: the `detected` flag, the
`positions` list and the saturating `confidence` heuristic. -/
structure Detection where
  detected : Bool
  positions : List (ℕ × ℕ)
  confidence : ℚ
  deriving DecidableEq

/-- `ContentGuardrail.detect_protected_content` (content_guardrails.py lines
52-83). -/
def detect_protected_content (matcher : List Char → List (ℕ × ℕ)) (enabled : Bool)
    (text : List Char) : Detection :=
  if ¬enabled ∨ text = [] then ⟨false, [], 0⟩
  else
    let ps := matcher text
    ⟨decide (0 < ps.length), ps, min ((ps.length : ℚ) / 3) 1⟩

/-- Does `sub` occur in `text` starting exactly at index `j`? -/
def sliceMatch (text sub : List Char) (j : ℕ) : Bool :=
  decide ((text.drop j).take sub.length = sub)

/-- All absolute indices `j` at which `sub` occurs inside the Python slice
`text[a:b]`: `a ≤ j` and `j + len(sub) ≤ min(b, len(text))`, in increasing
order. -/
def pyFindRange (text sub : List Char) (a b : ℕ) : List ℕ :=
  (List.range (text.length + 1)).filter
    (fun j => decide (a ≤ j) && decide (j + sub.length ≤ min b text.length) &&
      sliceMatch text sub j)

/-- Python `text.find(sub, a, b)` (with `-1` modelled as `none`). -/
def pyFind (text sub : List Char) (a b : ℕ) : Option ℕ :=
  (pyFindRange text sub a b).head?

/-- Python `text.rfind(sub, a, b)` (with `-1` modelled as `none`). -/
def pyRfind (text sub : List Char) (a b : ℕ) : Option ℕ :=
  (pyFindRange text sub a b).getLast?

/-- `ContentGuardrail._find_boundary_before` (content_guardrails.py lines 115-130).
Note `max(0, pos - 200)` is truncated subtraction on `ℕ`, and the final
`max(0, pos)` is just `pos`. -/
def find_boundary_before (text : List Char) (pos : ℕ) : ℕ :=
  match pyRfind text ['\n', '\n'] (pos - 200) pos with
  | some j => j + 2
  | none =>
    let s1 : ℤ := (pyRfind text ['.', ' '] (pos - 100) pos).elim (-1) (fun j => (j : ℤ))
    let s2 : ℤ := (pyRfind text ['.', '\n'] (pos - 100) pos).elim (-1) (fun j => (j : ℤ))
    let sent := max s1 s2
    if sent = -1 then pos else (sent + 2).toNat

/-- `ContentGuardrail._find_boundary_after` (content_guardrails.py lines
132-155). -/
def find_boundary_after (text : List Char) (pos : ℕ) : ℕ :=
  match pyFind text ['\n', '\n'] pos (min text.length (pos + 200)) with
  | some j => j
  | none =>
    let o1 := pyFind text ['.', ' '] pos (min text.length (pos + 100))
    let o2 := pyFind text ['.', '\n'] pos (min text.length (pos + 100))
    let sent : Option ℕ :=
      match o1, o2 with
      | some j1, some j2 => some (min j1 j2)
      | some j1, none => some j1
      | none, some j2 => some j2
      | none, none => none
    match sent with
    | some j => j + 1
    | none => min text.length pos

/-- One match position expanded by the symmetric context window and snapped to
boundaries (content_guardrails.py lines 98-105):
`max(0, start - ctx)` and `min(len, end + ctx)`, then the two boundary snaps. -/
def expandSection (text : List Char) (ctx : ℕ) (p : ℕ × ℕ) : ℕ × ℕ :=
  (find_boundary_before text (p.1 - ctx),
   find_boundary_after text (min text.length (p.2 + ctx)))

/-- The merge step of the section loop (content_guardrails.py lines 107-111):
merge with the previous section when overlapping, else append. -/
def mergeInto (acc : List (ℕ × ℕ)) (sec : ℕ × ℕ) : List (ℕ × ℕ) :=
  match acc.getLast? with
  | some last =>
    if sec.1 ≤ last.2 then acc.dropLast ++ [(last.1, max last.2 sec.2)]
    else acc ++ [sec]
  | none => [sec]

/-- Lexicographic comparison of position pairs, as Python's `sorted` orders
tuples. -/
def lexLe (p q : ℕ × ℕ) : Bool :=
  decide (p.1 < q.1) || (decide (p.1 = q.1) && decide (p.2 ≤ q.2))

/-- Ordered insertion for the model of Python `sorted`. -/
def insertSorted (x : ℕ × ℕ) : List (ℕ × ℕ) → List (ℕ × ℕ)
  | [] => [x]
  | y :: ys => if lexLe y x then y :: insertSorted x ys else x :: y :: ys

/-- Python `sorted` on a list of position pairs. -/
def pySorted (l : List (ℕ × ℕ)) : List (ℕ × ℕ) := l.foldr insertSorted []

/-- `ContentGuardrail.find_protected_sections` (content_guardrails.py lines
85-113). -/
def find_protected_sections (matcher : List Char → List (ℕ × ℕ)) (enabled : Bool)
    (text : List Char) (context_chars : ℕ) : List (ℕ × ℕ) :=
  if ¬enabled ∨ text = [] then []
  else
    let detection := detect_protected_content matcher enabled text
    if detection.detected = false then []
    else
      (pySorted detection.positions).foldl
        (fun acc p => mergeInto acc (expandSection text context_chars p)) []

/-- One removal step `cleaned_text[:start] + cleaned_text[end:]`
(content_guardrails.py line 186), with Python's clamping slice semantics. -/
def cutSection (l : List Char) (p : ℕ × ℕ) : List Char := l.take p.1 ++ l.drop p.2

/-- Worker for `re.sub(r'\n{3,}', '\n\n', …)`: `pending` counts the newlines of the
current run; a maximal run of `p` newlines is emitted as `min p 2` newlines (runs of
one or two pass through, longer runs collapse to two). -/
def collapseGo : List Char → ℕ → List Char
  | [], pending => List.replicate (min pending 2) '\n'
  | c :: rest, pending =>
    if c = '\n' then collapseGo rest (pending + 1)
    else List.replicate (min pending 2) '\n' ++ c :: collapseGo rest 0

/-- `re.sub(r'\n{3,}', '\n\n', text)` (content_guardrails.py line 189). -/
def collapseNewlines (l : List Char) : List Char := collapseGo l 0

/-- Python `text.strip()`. -/
def pyStrip (l : List Char) : List Char :=
  ((l.dropWhile Char.isWhitespace).reverse.dropWhile Char.isWhitespace).reverse

/-- The report dictionary of `ContentGuardrail.remove_protected_content`; the
`removed_chars` key is only present in the branch that actually removed sections
(and is an `int` that the source computes as a difference, hence `ℤ`). -/
structure RemovalResult where
  text : List Char
  removed : Bool
  original_length : ℕ
  final_length : ℕ
  sections_removed : ℕ
  removed_chars : Option ℤ
  deriving DecidableEq

/-- `ContentGuardrail.remove_protected_content` (content_guardrails.py lines
157-199). -/
def remove_protected_content (matcher : List Char → List (ℕ × ℕ))
    (cfg : GuardrailConfig) (text : List Char) : RemovalResult :=
  if ¬cfg.enabled ∨ text = [] then ⟨text, false, text.length, text.length, 0, none⟩
  else
    let sections :=
      find_protected_sections matcher cfg.enabled text (cfg.context_chars.getD 500)
    if sections = [] then ⟨text, false, text.length, text.length, 0, none⟩
    else
      let cleaned := sections.reverse.foldl cutSection text
      let cleaned2 := pyStrip (collapseNewlines cleaned)
      ⟨cleaned2, true, text.length, cleaned2.length, sections.length,
        some ((text.length : ℤ) - (cleaned2.length : ℤ))⟩

/-- The result dictionary of `ContentGuardrail.scan_and_guard`, restricted to the
fields the claims are about; `text` is `none` exactly when the source emits
`'text': None`, and the absent `should_review`/`rejected` keys are modelled as
`false`. -/
structure GuardResult where
  text : Option (List Char)
  action : List Char
  detected : Bool
  should_review : Bool
  rejected : Bool
  deriving DecidableEq

/-- `ContentGuardrail.scan_and_guard` (content_guardrails.py lines 201-274).
`action` is read from the configuration with default `'flag'`
(`self.guardrail_config.get('action', 'flag')`). -/
def scan_and_guard (matcher : List Char → List (ℕ × ℕ)) (cfg : GuardrailConfig)
    (text : List Char) : GuardResult :=
  if ¬cfg.enabled then ⟨some text, "none".toList, false, false, false⟩
  else
    let detection := detect_protected_content matcher cfg.enabled text
    let act := cfg.action.getD "flag".toList
    if detection.detected = false then ⟨some text, "none".toList, false, false, false⟩
    else if act = "remove".toList then
      ⟨some (remove_protected_content matcher cfg text).text, "removed".toList,
       true, false, false⟩
    else if act = "flag".toList then ⟨some text, "flagged".toList, true, true, false⟩
    else if act = "reject".toList then ⟨none, "rejected".toList, true, false, true⟩
    else ⟨some text, "none".toList, true, false, false⟩

/-- A computable injective fingerprint function on texts, used to instantiate the
abstract collision-free hash in witnesses. -/
def strCode : List Char → ℕ
  | [] => 0
  | c :: cs => Nat.pair c.toNat (strCode cs) + 1

/-! Theorems. -/

theorem strCode_injective : Function.Injective strCode := by
  intro a b
  induction a generalizing b with
  | nil => cases b with
    | nil => intro _; rfl
    | cons d ds => intro h; simp [strCode] at h
  | cons c cs ih =>
    cases b with
    | nil => intro h; simp [strCode] at h
    | cons d ds =>
      intro h
      simp only [strCode, Nat.add_right_cancel_iff] at h
      rw [Nat.pair_eq_pair] at h
      obtain ⟨h1, h2⟩ := h
      have hc : c = d := Char.eq_of_val_eq (by
        have := congrArg Char.ofNat h1
        simpa [Char.ofNat_toNat] using congrArg Char.val this)
      rw [hc, ih h2]

/-- Texts whose fingerprints populate a `seen_hashes` state reachable from a run
that exact-checked exactly the texts of `ts`. -/
def seenOf (hash : List Char → ℕ) (ts : List (List Char)) : Finset ℕ :=
  (ts.map hash).toFinset

theorem seenOf_not_mem (hash : List Char → ℕ) (hinj : Function.Injective hash)
    (ts : List (List Char)) (X : List Char) (hX : ∀ t ∈ ts, X ≠ t) :
    hash X ∉ seenOf hash ts := by
  intro hmem
  simp only [seenOf, List.mem_toFinset, List.mem_map] at hmem
  obtain ⟨t, ht, heq⟩ := hmem
  exact hX t ht (hinj heq).symm

/-- C1: with hash collisions impossible (the hash is injective), the first
exact-duplicate check of a text `T` not previously checked returns `false` and
records `T`'s hash; a second check of the same `T` then returns `true`; and any
text `T'` that differs from every previously checked text returns `false` on its
first check — in particular the pair (fresh `T`, byte-different fresh `T'`) yields
`(false, false)` on their first checks while a repeated `T` yields `true`. -/
theorem exact_dedup_first_second_calls (hash : List Char → ℕ)
    (hinj : Function.Injective hash) (ts : List (List Char)) (T : List Char)
    (hT : ∀ t ∈ ts, T ≠ t) :
    (is_exact_duplicate hash (seenOf hash ts) T).1 = false ∧
    (is_exact_duplicate hash (seenOf hash ts) T).2 = insert (hash T) (seenOf hash ts) ∧
    (is_exact_duplicate hash (insert (hash T) (seenOf hash ts)) T).1 = true ∧
    (∀ T', (∀ t ∈ ts, T' ≠ t) →
      (is_exact_duplicate hash (seenOf hash ts) T').1 = false) ∧
    (∀ T', T' ≠ T → (∀ t ∈ ts, T' ≠ t) →
      (is_exact_duplicate hash (insert (hash T) (seenOf hash ts)) T').1 = false) := by
  have hTnot := seenOf_not_mem hash hinj ts T hT
  refine ⟨?_, ?_, ?_, ?_, ?_⟩
  · simp [is_exact_duplicate, hTnot]
  · simp [is_exact_duplicate, hTnot]
  · simp [is_exact_duplicate]
  · intro T' hT'
    simp [is_exact_duplicate, seenOf_not_mem hash hinj ts T' hT']
  · intro T' hne hT'
    have h1 : hash T' ≠ hash T := fun h => hne (hinj h)
    have h2 := seenOf_not_mem hash hinj ts T' hT'
    simp [is_exact_duplicate, Finset.mem_insert, h1, h2]

theorem exact_dedup_first_second_calls_witness :
    (is_exact_duplicate strCode (seenOf strCode ["old".toList]) "ab".toList).1 = false ∧
    (is_exact_duplicate strCode
      (insert (strCode "ab".toList) (seenOf strCode ["old".toList])) "ab".toList).1 = true ∧
    (is_exact_duplicate strCode
      (insert (strCode "ab".toList) (seenOf strCode ["old".toList])) "cd".toList).1 = false := by
  have h := exact_dedup_first_second_calls strCode strCode_injective
    ["old".toList] "ab".toList (by decide)
  exact ⟨h.1, h.2.2.1, h.2.2.2.2 "cd".toList (by decide) (by decide)⟩

/-- C3: with the index present, a near-duplicate check whose LSH query finds at
least one previously inserted similar sketch returns `true` and leaves the index
unchanged (so only the first-seen member of a similar cluster is retained), while a
check whose query comes back empty appends the sketch keyed by the chunk id and
returns `false`. -/
theorem near_duplicate_first_survives {κ Sketch : Type} (mkSketch : List Char → Sketch)
    (querySim : Sketch → Sketch → Bool) (entries : List (κ × Sketch))
    (text : List Char) (cid : κ) :
    (lshQuery querySim entries (mkSketch text) ≠ [] →
      is_near_duplicate mkSketch querySim (some entries) text cid =
        (true, some entries)) ∧
    (lshQuery querySim entries (mkSketch text) = [] →
      is_near_duplicate mkSketch querySim (some entries) text cid =
        (false, some (entries ++ [(cid, mkSketch text)]))) := by
  constructor
  · intro h
    have : (lshQuery querySim entries (mkSketch text)).isEmpty = false := by
      cases hq : lshQuery querySim entries (mkSketch text) with
      | nil => exact absurd hq h
      | cons a l => rfl
    simp [is_near_duplicate, this]
  · intro h
    simp [is_near_duplicate, h]

theorem near_duplicate_first_survives_witness :
    is_near_duplicate (fun _ => (1 : ℕ)) (fun a b => a = b)
      (some [("first".toList, 1)]) "second text".toList "c2".toList =
      (true, some [("first".toList, 1)]) ∧
    is_near_duplicate (fun _ => (1 : ℕ)) (fun a b => a = b)
      (some []) "first text".toList "c1".toList =
      (false, some [("c1".toList, 1)]) := by
  constructor
  · exact (near_duplicate_first_survives (fun _ => (1 : ℕ)) (fun a b => decide (a = b))
      [("first".toList, 1)] "second text".toList "c2".toList).1 (by decide)
  · exact (near_duplicate_first_survives (fun _ => (1 : ℕ)) (fun a b => decide (a = b))
      [] "first text".toList "c1".toList).2 (by decide)

/-- C8 (code bug): a chunk file whose JSON content decodes to a non-dict value —
here the JSON array `[]` — makes `process_chunk` raise `AttributeError` at
`chunk.get('text', '')`, so an exception escapes the single-chunk call instead of a
skip verdict being returned. -/
theorem process_chunk_nondict_raises :
    @process_chunk ℕ (fun _ => 0) (fun _ => 0) (fun _ _ => false)
      (fun _ => 50) ⟨true, true, 50⟩ ⟨5, 10000, 3/10, 3/10, 1/2, false, 0⟩
      "2024-01-01T00:00:00".toList "chunk_0001.json".toList
      ⟨∅, some []⟩ (some (.arr [])) = .error .attributeError := rfl

theorem is_near_duplicate_found_state {κ Sketch : Type} (mkSketch : List Char → Sketch)
    (querySim : Sketch → Sketch → Bool) (lsh : Option (List (κ × Sketch)))
    (text : List Char) (cid : κ)
    (h : (is_near_duplicate mkSketch querySim lsh text cid).1 = true) :
    (is_near_duplicate mkSketch querySim lsh text cid).2 = lsh := by
  cases lsh with
  | none => simp [is_near_duplicate] at h
  | some entries =>
    by_cases hq : (lshQuery querySim entries (mkSketch text)).isEmpty
    · simp [is_near_duplicate, hq] at h
    · simp [is_near_duplicate, hq]

/-- C2: `process_chunk` runs its stages in the fixed order minimum-length check,
exact-dedup (when enabled), near-dedup (when enabled), quality assessment; the
first failing stage gives the verdict's reason and no later stage runs or mutates
state — in particular a too-short chunk leaves the whole state (hash registry
included) untouched, an exact-duplicate hit leaves both registry and index
untouched, and a near-duplicate hit leaves the index untouched; on full pass the
chunk's metadata gains the quality metrics, the filtering timestamp and the
passed-filtering mark, and the verdict keeps the chunk. -/
theorem process_chunk_fail_fast_order {Sketch : Type}
    (hash : List Char → ℕ) (mkSketch : List Char → Sketch)
    (querySim : Sketch → Sketch → Bool) (readability : List Char → ℚ)
    (dc : DedupConfig) (qc : QualityConfig) (now fname : List Char)
    (st : FilterState Sketch) (kvs : List (List Char × Json)) (s : List Char)
    (htext : (jsonLookup kvs "text".toList).getD (.str []) = .str s) :
    (s.length < dc.min_text_length →
      process_chunk hash mkSketch querySim readability dc qc now fname st
        (some (.obj kvs)) = .ok (.reject .textTooShort, st)) ∧
    (dc.min_text_length ≤ s.length → dc.exact_dedup = true →
      hash s ∈ st.seen_hashes →
      process_chunk hash mkSketch querySim readability dc qc now fname st
        (some (.obj kvs)) = .ok (.reject .exactDuplicate, st)) ∧
    (dc.min_text_length ≤ s.length →
      (dc.exact_dedup = true → hash s ∉ st.seen_hashes) →
      dc.near_dedup = true →
      (is_near_duplicate mkSketch querySim st.lsh s
        ((jsonLookup kvs "id".toList).getD (.str fname))).1 = true →
      process_chunk hash mkSketch querySim readability dc qc now fname st
        (some (.obj kvs)) =
        .ok (.reject .nearDuplicate,
          ⟨if dc.exact_dedup then insert (hash s) st.seen_hashes else st.seen_hashes,
           st.lsh⟩)) ∧
    (∀ r, dc.min_text_length ≤ s.length →
      (dc.exact_dedup = true → hash s ∉ st.seen_hashes) →
      (dc.near_dedup = true →
        (is_near_duplicate mkSketch querySim st.lsh s
          ((jsonLookup kvs "id".toList).getD (.str fname))).1 = false) →
      assess_quality readability qc s = .fail r →
      process_chunk hash mkSketch querySim readability dc qc now fname st
        (some (.obj kvs)) =
        .ok (.reject (.quality r),
          ⟨if dc.exact_dedup then insert (hash s) st.seen_hashes else st.seen_hashes,
           if dc.near_dedup then
             (is_near_duplicate mkSketch querySim st.lsh s
               ((jsonLookup kvs "id".toList).getD (.str fname))).2
           else st.lsh⟩)) ∧
    (∀ m mkvs, dc.min_text_length ≤ s.length →
      (dc.exact_dedup = true → hash s ∉ st.seen_hashes) →
      (dc.near_dedup = true →
        (is_near_duplicate mkSketch querySim st.lsh s
          ((jsonLookup kvs "id".toList).getD (.str fname))).1 = false) →
      assess_quality readability qc s = .pass m →
      jsonLookup kvs "metadata".toList = some (.obj mkvs) →
      process_chunk hash mkSketch querySim readability dc qc now fname st
        (some (.obj kvs)) =
        .ok (.keep (.obj (jsonSet kvs "metadata".toList
            (.obj (jsonSet (jsonSet (jsonSet mkvs "quality_metrics".toList
              (metricsJson m)) "filtering_timestamp".toList (.str now))
              "passed_filtering".toList (.bool true))))),
          ⟨if dc.exact_dedup then insert (hash s) st.seen_hashes else st.seen_hashes,
           if dc.near_dedup then
             (is_near_duplicate mkSketch querySim st.lsh s
               ((jsonLookup kvs "id".toList).getD (.str fname))).2
           else st.lsh⟩)) := by
  have ht : (jsonLookup kvs (['t', 'e', 'x', 't'] : List Char)).getD (Json.str []) =
      Json.str s := htext
  refine ⟨?_, ?_, ?_, ?_, ?_⟩
  · intro hshort
    simp [process_chunk, ht, pyLen, hshort, Except.bind]
  · intro hlen hex hmem
    simp [process_chunk, ht, pyLen, Nat.not_lt.mpr hlen, Except.bind, asStr, hex,
      is_exact_duplicate, hmem]
  · intro hlen hnomem hnear hfound
    have hf : (is_near_duplicate mkSketch querySim st.lsh s
        ((jsonLookup kvs (['i', 'd'] : List Char)).getD (Json.str fname))).1 = true :=
      hfound
    have hstate : (is_near_duplicate mkSketch querySim st.lsh s
        ((jsonLookup kvs (['i', 'd'] : List Char)).getD (Json.str fname))).2 = st.lsh :=
      is_near_duplicate_found_state mkSketch querySim st.lsh s _ hf
    cases hex : dc.exact_dedup with
    | false =>
      simp [process_chunk, ht, pyLen, Nat.not_lt.mpr hlen, Except.bind, asStr, hex,
        hnear, hf, hstate]
    | true =>
      simp [process_chunk, ht, pyLen, Nat.not_lt.mpr hlen, Except.bind, asStr, hex,
        is_exact_duplicate, hnomem hex, hnear, hf, hstate]
  · intro r hlen hnomem hnofind hq
    have hnf : dc.near_dedup = true → (is_near_duplicate mkSketch querySim st.lsh s
        ((jsonLookup kvs (['i', 'd'] : List Char)).getD (Json.str fname))).1 = false :=
      hnofind
    cases hex : dc.exact_dedup with
    | false =>
      cases hnear : dc.near_dedup with
      | false =>
        simp [process_chunk, ht, pyLen, Nat.not_lt.mpr hlen, Except.bind, asStr,
          hex, hnear, hq]
      | true =>
        simp [process_chunk, ht, pyLen, Nat.not_lt.mpr hlen, Except.bind, asStr,
          hex, hnear, hnf hnear, hq]
    | true =>
      cases hnear : dc.near_dedup with
      | false =>
        simp [process_chunk, ht, pyLen, Nat.not_lt.mpr hlen, Except.bind, asStr,
          hex, is_exact_duplicate, hnomem hex, hnear, hq]
      | true =>
        simp [process_chunk, ht, pyLen, Nat.not_lt.mpr hlen, Except.bind, asStr,
          hex, is_exact_duplicate, hnomem hex, hnear, hnf hnear, hq]
  · intro m mkvs hlen hnomem hnofind hq hmeta
    have hnf : dc.near_dedup = true → (is_near_duplicate mkSketch querySim st.lsh s
        ((jsonLookup kvs (['i', 'd'] : List Char)).getD (Json.str fname))).1 = false :=
      hnofind
    have hm : jsonLookup kvs
        (['m', 'e', 't', 'a', 'd', 'a', 't', 'a'] : List Char) = some (.obj mkvs) :=
      hmeta
    cases hex : dc.exact_dedup with
    | false =>
      cases hnear : dc.near_dedup with
      | false =>
        simp [process_chunk, ht, pyLen, Nat.not_lt.mpr hlen, Except.bind, asStr,
          hex, hnear, hq, updateChunk, hm]
      | true =>
        simp [process_chunk, ht, pyLen, Nat.not_lt.mpr hlen, Except.bind, asStr,
          hex, hnear, hnf hnear, hq, updateChunk, hm]
    | true =>
      cases hnear : dc.near_dedup with
      | false =>
        simp [process_chunk, ht, pyLen, Nat.not_lt.mpr hlen, Except.bind, asStr,
          hex, is_exact_duplicate, hnomem hex, hnear, hq, updateChunk, hm]
      | true =>
        simp [process_chunk, ht, pyLen, Nat.not_lt.mpr hlen, Except.bind, asStr,
          hex, is_exact_duplicate, hnomem hex, hnear, hnf hnear, hq, updateChunk, hm]

theorem process_chunk_fail_fast_order_witness :
    @process_chunk ℕ (fun _ => 7) (fun _ => 1) (fun _ _ => false) (fun _ => 50)
      ⟨true, true, 5⟩ ⟨5, 10000, 3/10, 3/10, 1/2, false, 0⟩
      "2024-01-01T00:00:00".toList "f.json".toList ⟨∅, some []⟩
      (some (.obj [("text".toList,
          .str "alpha beta gamma delta epsilon zeta eta theta iota kappa".toList),
        ("id".toList, .str "c1".toList), ("metadata".toList, .obj [])])) =
      .ok (.keep (.obj (jsonSet
          [("text".toList,
            .str "alpha beta gamma delta epsilon zeta eta theta iota kappa".toList),
           ("id".toList, .str "c1".toList), ("metadata".toList, .obj [])]
          "metadata".toList
          (.obj (jsonSet (jsonSet (jsonSet [] "quality_metrics".toList
            (metricsJson ⟨10, 10, 1, 0, 1, none⟩)) "filtering_timestamp".toList
            (.str "2024-01-01T00:00:00".toList)) "passed_filtering".toList
            (.bool true))))),
        ⟨insert 7 ∅, some [(Json.str "c1".toList, 1)]⟩) := by
  have h := (@process_chunk_fail_fast_order ℕ (fun _ => 7) (fun _ => 1)
    (fun _ _ => false) (fun _ => 50) ⟨true, true, 5⟩ ⟨5, 10000, 3/10, 3/10, 1/2, false, 0⟩
    "2024-01-01T00:00:00".toList "f.json".toList ⟨∅, some []⟩
    [("text".toList,
      .str "alpha beta gamma delta epsilon zeta eta theta iota kappa".toList),
     ("id".toList, .str "c1".toList), ("metadata".toList, .obj [])]
    "alpha beta gamma delta epsilon zeta eta theta iota kappa".toList
    rfl).2.2.2.2 ⟨10, 10, 1, 0, 1, none⟩ []
    (by decide) (fun _ => by decide) (fun _ => by with_unfolding_all decide)
    (by with_unfolding_all decide) rfl
  exact h

/-- C4 counterexample: `assess_quality` has no raw character-count gate.  With the
configured floor `min_text_length = 200` and an ordinary quality configuration, a
56-character text passes `assess_quality` outright instead of being rejected as too
short. -/
theorem assess_quality_no_char_floor_cex :
    ("alpha beta gamma delta epsilon zeta eta theta iota kappa".toList.length <
      (DedupConfig.mk true true 200).min_text_length) ∧
    (assess_quality (fun _ => 50) ⟨5, 10000, 3/10, 3/10, 1/2, false, 0⟩
      "alpha beta gamma delta epsilon zeta eta theta iota kappa".toList).passed
      = true := by
  constructor
  · decide
  · with_unfolding_all decide

/-- C4 (amended): the minimum raw character-count gate is applied by the per-chunk
filter `process_chunk` as its very first check — before exact-dedup, near-dedup and
every gate of `assess_quality` — rejecting with the `Text too short` reason and
leaving the state untouched; it is not a gate of `assess_quality` itself, whose
first gate is the word count. -/
theorem min_length_gate_first_in_process_chunk {Sketch : Type}
    (hash : List Char → ℕ) (mkSketch : List Char → Sketch)
    (querySim : Sketch → Sketch → Bool) (readability : List Char → ℚ)
    (dc : DedupConfig) (qc : QualityConfig) (now fname : List Char)
    (st : FilterState Sketch) (kvs : List (List Char × Json)) (s : List Char)
    (htext : (jsonLookup kvs "text".toList).getD (.str []) = .str s)
    (hshort : s.length < dc.min_text_length) :
    process_chunk hash mkSketch querySim readability dc qc now fname st
      (some (.obj kvs)) = .ok (.reject .textTooShort, st) := by
  have ht : (jsonLookup kvs (['t', 'e', 'x', 't'] : List Char)).getD (Json.str []) =
      Json.str s := htext
  simp [process_chunk, ht, pyLen, hshort, Except.bind]

theorem min_length_gate_first_in_process_chunk_witness :
    @process_chunk ℕ (fun _ => 7) (fun _ => 1) (fun _ _ => false)
      (fun _ => 50) ⟨true, true, 50⟩ ⟨5, 10000, 3/10, 3/10, 1/2, false, 0⟩
      "2024-01-01T00:00:00".toList "f.json".toList ⟨∅, some []⟩
      (some (.obj [("text".toList, .str "hi".toList)])) =
      .ok (.reject .textTooShort, ⟨∅, some []⟩) :=
  @min_length_gate_first_in_process_chunk ℕ (fun _ => 7) (fun _ => 1)
    (fun _ _ => false) (fun _ => 50) ⟨true, true, 50⟩ ⟨5, 10000, 3/10, 3/10, 1/2, false, 0⟩
    "2024-01-01T00:00:00".toList "f.json".toList ⟨∅, some []⟩
    [("text".toList, .str "hi".toList)] "hi".toList rfl (by decide)

/-- C5 counterexample: with the `action` key absent from the configuration and a
pattern match present, `scan_and_guard` applies the default `'flag'` action — the
reported action is `'flagged'`, not `'none'` as the claim states. -/
theorem scan_and_guard_absent_action_cex :
    (scan_and_guard (fun _ => [(0, 1)]) ⟨true, none, none⟩ "abcdef".toList).action =
      "flagged".toList ∧
    "flagged".toList ≠ "none".toList := by
  constructor
  · rfl
  · decide

/-- C5 (amended): when matches are found and the configured action is a string
other than `remove`, `flag` and `reject`, `scan_and_guard` acts as `none` (the text
is returned unchanged and the reported action is `'none'`); when the `action` key
is absent from the configuration, however, it defaults to `flag`, not to
`none`. -/
theorem scan_and_guard_unknown_action_none (matcher : List Char → List (ℕ × ℕ))
    (cfg : GuardrailConfig) (text : List Char) (hen : cfg.enabled = true)
    (hdet : (detect_protected_content matcher cfg.enabled text).detected = true) :
    (∀ a, cfg.action = some a → a ≠ "remove".toList → a ≠ "flag".toList →
      a ≠ "reject".toList →
      scan_and_guard matcher cfg text =
        ⟨some text, "none".toList, true, false, false⟩) ∧
    (cfg.action = none →
      scan_and_guard matcher cfg text =
        ⟨some text, "flagged".toList, true, true, false⟩) := by
  rw [hen] at hdet
  constructor
  · intro a ha h1 h2 h3
    have h1' : a ≠ (['r', 'e', 'm', 'o', 'v', 'e'] : List Char) := h1
    have h2' : a ≠ (['f', 'l', 'a', 'g'] : List Char) := h2
    have h3' : a ≠ (['r', 'e', 'j', 'e', 'c', 't'] : List Char) := h3
    simp [scan_and_guard, hen, hdet, ha, h1', h2', h3']
  · intro ha
    simp [scan_and_guard, hen, hdet, ha]

theorem scan_and_guard_unknown_action_none_witness :
    scan_and_guard (fun _ => [(0, 1)]) ⟨true, some "redact".toList, none⟩
      "abcdef".toList = ⟨some "abcdef".toList, "none".toList, true, false, false⟩ ∧
    scan_and_guard (fun _ => [(0, 1)]) ⟨true, none, none⟩ "abcdef".toList =
      ⟨some "abcdef".toList, "flagged".toList, true, true, false⟩ := by
  constructor
  · exact (scan_and_guard_unknown_action_none (fun _ => [(0, 1)])
      ⟨true, some "redact".toList, none⟩ "abcdef".toList rfl (by decide)).1
      "redact".toList rfl (by decide) (by decide) (by decide)
  · exact (scan_and_guard_unknown_action_none (fun _ => [(0, 1)])
      ⟨true, none, none⟩ "abcdef".toList rfl (by decide)).2 rfl

/-- C6: when filtering is enabled and pattern matches are found, action `flag`
returns the input text exactly, unblocked but marked for human review; action
`reject` returns a null text with the rejected signal set; action `remove` returns
exactly the text produced by the removal step `remove_protected_content`. -/
theorem scan_and_guard_action_semantics (matcher : List Char → List (ℕ × ℕ))
    (cfg : GuardrailConfig) (text : List Char) (hen : cfg.enabled = true)
    (hdet : (detect_protected_content matcher cfg.enabled text).detected = true) :
    (cfg.action = some "flag".toList →
      scan_and_guard matcher cfg text =
        ⟨some text, "flagged".toList, true, true, false⟩) ∧
    (cfg.action = some "reject".toList →
      scan_and_guard matcher cfg text =
        ⟨none, "rejected".toList, true, false, true⟩) ∧
    (cfg.action = some "remove".toList →
      scan_and_guard matcher cfg text =
        ⟨some (remove_protected_content matcher cfg text).text, "removed".toList,
         true, false, false⟩) := by
  rw [hen] at hdet
  refine ⟨?_, ?_, ?_⟩
  · intro ha
    simp [scan_and_guard, hen, hdet, ha]
  · intro ha
    simp [scan_and_guard, hen, hdet, ha]
  · intro ha
    simp [scan_and_guard, hen, hdet, ha]

theorem scan_and_guard_action_semantics_witness :
    scan_and_guard (fun _ => [(0, 1)]) ⟨true, some "flag".toList, none⟩
      "abcdef".toList = ⟨some "abcdef".toList, "flagged".toList, true, true, false⟩ ∧
    scan_and_guard (fun _ => [(0, 1)]) ⟨true, some "reject".toList, none⟩
      "abcdef".toList = ⟨none, "rejected".toList, true, false, true⟩ ∧
    scan_and_guard (fun _ => [(0, 1)]) ⟨true, some "remove".toList, none⟩
      "abcdef".toList =
      ⟨some (remove_protected_content (fun _ => [(0, 1)])
        ⟨true, some "remove".toList, none⟩ "abcdef".toList).text, "removed".toList,
       true, false, false⟩ := by
  refine ⟨?_, ?_, ?_⟩
  · exact (scan_and_guard_action_semantics (fun _ => [(0, 1)])
      ⟨true, some "flag".toList, none⟩ "abcdef".toList rfl (by decide)).1 rfl
  · exact (scan_and_guard_action_semantics (fun _ => [(0, 1)])
      ⟨true, some "reject".toList, none⟩ "abcdef".toList rfl (by decide)).2.1 rfl
  · exact (scan_and_guard_action_semantics (fun _ => [(0, 1)])
      ⟨true, some "remove".toList, none⟩ "abcdef".toList rfl (by decide)).2.2 rfl

theorem head?_mem {α : Type} {l : List α} {x : α} (h : l.head? = some x) : x ∈ l := by
  cases l with
  | nil => simp at h
  | cons a t => simp at h; simp [h]

theorem getLast?_mem {α : Type} {l : List α} {x : α} (h : l.getLast? = some x) :
    x ∈ l := by
  induction l with
  | nil => simp at h
  | cons a t ih =>
    cases t with
    | nil => simp at h; simp [h]
    | cons b u =>
      rw [List.getLast?_cons_cons] at h
      exact List.mem_cons_of_mem a (ih h)

theorem pyFindRange_mem {text sub : List Char} {a b j : ℕ}
    (h : j ∈ pyFindRange text sub a b) :
    a ≤ j ∧ j + sub.length ≤ min b text.length := by
  obtain ⟨-, hp⟩ := List.mem_filter.mp h
  simp only [Bool.and_eq_true, decide_eq_true_eq] at hp
  exact ⟨hp.1.1, hp.1.2⟩

theorem pyFind_mem {text sub : List Char} {a b j : ℕ} (h : pyFind text sub a b = some j) :
    a ≤ j ∧ j + sub.length ≤ min b text.length :=
  pyFindRange_mem (head?_mem h)

theorem pyRfind_mem {text sub : List Char} {a b j : ℕ}
    (h : pyRfind text sub a b = some j) :
    a ≤ j ∧ j + sub.length ≤ min b text.length :=
  pyFindRange_mem (getLast?_mem h)

theorem find_boundary_before_le (text : List Char) (pos : ℕ) :
    find_boundary_before text pos ≤ pos := by
  unfold find_boundary_before
  cases hp : pyRfind text ['\n', '\n'] (pos - 200) pos with
  | some j =>
    have hb := pyRfind_mem hp
    simp only [List.length_cons, List.length_nil] at hb
    show j + 2 ≤ pos
    omega
  | none =>
    cases h1 : pyRfind text ['.', ' '] (pos - 100) pos with
    | none =>
      cases h2 : pyRfind text ['.', '\n'] (pos - 100) pos with
      | none => simp
      | some j2 =>
        have hb := pyRfind_mem h2
        simp only [List.length_cons, List.length_nil] at hb
        simp only [Option.elim]
        split
        · exact le_refl pos
        · omega
    | some j1 =>
      have hb1 := pyRfind_mem h1
      simp only [List.length_cons, List.length_nil] at hb1
      cases h2 : pyRfind text ['.', '\n'] (pos - 100) pos with
      | none =>
        simp only [Option.elim]
        split
        · exact le_refl pos
        · omega
      | some j2 =>
        have hb2 := pyRfind_mem h2
        simp only [List.length_cons, List.length_nil] at hb2
        simp only [Option.elim]
        split
        · exact le_refl pos
        · omega

theorem find_boundary_after_bounds (text : List Char) (pos : ℕ)
    (hpos : pos ≤ text.length) :
    pos ≤ find_boundary_after text pos ∧ find_boundary_after text pos ≤ text.length := by
  unfold find_boundary_after
  cases hp : pyFind text ['\n', '\n'] pos (min text.length (pos + 200)) with
  | some j =>
    have hb := pyFind_mem hp
    simp only [List.length_cons, List.length_nil] at hb
    show pos ≤ j ∧ j ≤ text.length
    omega
  | none =>
    cases h1 : pyFind text ['.', ' '] pos (min text.length (pos + 100)) with
    | none =>
      cases h2 : pyFind text ['.', '\n'] pos (min text.length (pos + 100)) with
      | none => simp; omega
      | some j2 =>
        have hb := pyFind_mem h2
        simp only [List.length_cons, List.length_nil] at hb
        simp only
        omega
    | some j1 =>
      have hb1 := pyFind_mem h1
      simp only [List.length_cons, List.length_nil] at hb1
      cases h2 : pyFind text ['.', '\n'] pos (min text.length (pos + 100)) with
      | none =>
        simp only
        omega
      | some j2 =>
        have hb2 := pyFind_mem h2
        simp only [List.length_cons, List.length_nil] at hb2
        simp only
        omega

theorem expandSection_bounds (text : List Char) (ctx : ℕ) (p : ℕ × ℕ)
    (h1 : p.1 ≤ p.2) (h2 : p.2 ≤ text.length) :
    (expandSection text ctx p).1 ≤ (expandSection text ctx p).2 ∧
    (expandSection text ctx p).2 ≤ text.length := by
  have hbef := find_boundary_before_le text (p.1 - ctx)
  have haft := find_boundary_after_bounds text (min text.length (p.2 + ctx))
    (min_le_left _ _)
  simp only [expandSection]
  omega

theorem mergeInto_inv {len : ℕ} {acc : List (ℕ × ℕ)} {sec : ℕ × ℕ}
    (hb : ∀ p ∈ acc, p.1 ≤ p.2 ∧ p.2 ≤ len)
    (hp : acc.Pairwise (fun a b => a.2 < b.1))
    (hs1 : sec.1 ≤ sec.2) (hs2 : sec.2 ≤ len) :
    (∀ p ∈ mergeInto acc sec, p.1 ≤ p.2 ∧ p.2 ≤ len) ∧
    (mergeInto acc sec).Pairwise (fun a b => a.2 < b.1) := by
  rcases List.eq_nil_or_concat acc with h | ⟨init, last, h⟩
  · subst h
    constructor
    · intro p hpmem
      simp [mergeInto] at hpmem
      subst hpmem
      exact ⟨hs1, hs2⟩
    · simp [mergeInto]
  · subst h
    simp only [List.concat_eq_append] at hb hp ⊢
    simp only [mergeInto, List.getLast?_concat, List.dropLast_concat]
    have hlast : last.1 ≤ last.2 ∧ last.2 ≤ len := hb last (by simp)
    obtain ⟨hpi, -, hrel⟩ := List.pairwise_append.mp hp
    by_cases hc : sec.1 ≤ last.2
    · rw [if_pos hc]
      constructor
      · intro p hpmem
        rcases List.mem_append.mp hpmem with h | h
        · exact hb p (List.mem_append.mpr (Or.inl h))
        · simp at h
          subst h
          exact ⟨le_trans hlast.1 (le_max_left _ _), max_le hlast.2 hs2⟩
      · apply List.pairwise_append.mpr
        refine ⟨hpi, List.pairwise_singleton _ _, ?_⟩
        intro a ha b hbmem
        simp at hbmem
        subst hbmem
        simpa using hrel a ha last (by simp)
    · rw [if_neg hc]
      push_neg at hc
      constructor
      · intro p hpmem
        rcases List.mem_append.mp hpmem with h | h
        · exact hb p h
        · simp at h
          subst h
          exact ⟨hs1, hs2⟩
      · apply List.pairwise_append.mpr
        refine ⟨hp, List.pairwise_singleton _ _, ?_⟩
        intro a ha b hbmem
        simp at hbmem
        subst hbmem
        rcases List.mem_append.mp ha with h | h
        · have h1 := hrel a h last (by simp)
          simp only at h1
          omega
        · simp at h
          subst h
          exact hc

theorem foldMerge_inv (text : List Char) (ctx : ℕ) (ps : List (ℕ × ℕ)) :
    ∀ (acc : List (ℕ × ℕ)),
      (∀ p ∈ ps, p.1 ≤ p.2 ∧ p.2 ≤ text.length) →
      (∀ p ∈ acc, p.1 ≤ p.2 ∧ p.2 ≤ text.length) →
      acc.Pairwise (fun a b => a.2 < b.1) →
      (∀ p ∈ ps.foldl (fun acc p => mergeInto acc (expandSection text ctx p)) acc,
        p.1 ≤ p.2 ∧ p.2 ≤ text.length) ∧
      (ps.foldl (fun acc p => mergeInto acc (expandSection text ctx p)) acc).Pairwise
        (fun a b => a.2 < b.1) := by
  induction ps with
  | nil => intro acc _ hb hp; exact ⟨hb, hp⟩
  | cons q qs ih =>
    intro acc hps hb hp
    have hq := hps q (List.mem_cons_self q qs)
    have hexp := expandSection_bounds text ctx q hq.1 hq.2
    have hnext := mergeInto_inv hb hp hexp.1 hexp.2
    exact ih (mergeInto acc (expandSection text ctx q)) (fun p hpmem => hps p
      (List.mem_cons_of_mem q hpmem)) hnext.1 hnext.2

theorem mem_insertSorted {x y : ℕ × ℕ} {l : List (ℕ × ℕ)}
    (h : y ∈ insertSorted x l) : y = x ∨ y ∈ l := by
  induction l with
  | nil => simp [insertSorted] at h; exact Or.inl h
  | cons a t ih =>
    simp only [insertSorted] at h
    by_cases hc : lexLe a x
    · rw [if_pos hc] at h
      rcases List.mem_cons.mp h with h | h
      · exact Or.inr (List.mem_cons.mpr (Or.inl h))
      · rcases ih h with h | h
        · exact Or.inl h
        · exact Or.inr (List.mem_cons.mpr (Or.inr h))
    · rw [if_neg hc] at h
      rcases List.mem_cons.mp h with h | h
      · exact Or.inl h
      · exact Or.inr h

theorem mem_pySorted {y : ℕ × ℕ} {l : List (ℕ × ℕ)} (h : y ∈ pySorted l) : y ∈ l := by
  induction l with
  | nil => simp [pySorted] at h
  | cons a t ih =>
    have : pySorted (a :: t) = insertSorted a (pySorted t) := rfl
    rw [this] at h
    rcases mem_insertSorted h with h | h
    · simp [h]
    · exact List.mem_cons_of_mem a (ih h)

/-- Bounds and disjointness for the sections produced by
`find_protected_sections`, for any pattern-match list within the bounds the `re`
module guarantees.  This is the shared workhorse behind the stated claims. -/
theorem find_protected_sections_ok (matcher : List Char → List (ℕ × ℕ))
    (enabled : Bool) (text : List Char) (ctx : ℕ)
    (hm : ∀ p ∈ matcher text, p.1 ≤ p.2 ∧ p.2 ≤ text.length) :
    (∀ p ∈ find_protected_sections matcher enabled text ctx,
      p.1 ≤ p.2 ∧ p.2 ≤ text.length) ∧
    (find_protected_sections matcher enabled text ctx).Pairwise
      (fun a b => a.2 < b.1) := by
  unfold find_protected_sections
  by_cases hg : ¬enabled = true ∨ text = []
  · rw [if_pos hg]
    simp
  · rw [if_neg hg]
    push_neg at hg
    by_cases hd : (detect_protected_content matcher enabled text).detected = false
    · rw [if_pos hd]
      simp
    · rw [if_neg hd]
      apply foldMerge_inv
      · intro p hpmem
        have hpm := mem_pySorted hpmem
        have hpos : (detect_protected_content matcher enabled text).positions =
            matcher text := by
          simp [detect_protected_content, hg.1, hg.2]
        rw [hpos] at hpm
        exact hm p hpm
      · intro p hpmem
        simp at hpmem
      · exact List.Pairwise.nil

theorem pairwise_weaken {l : List (ℕ × ℕ)} (hb : ∀ p ∈ l, p.1 ≤ p.2)
    (hp : l.Pairwise (fun a b => a.2 < b.1)) :
    l.Pairwise (fun a b => a.1 ≤ b.1 ∧ a.2 ≤ b.1) := by
  induction l with
  | nil => exact List.Pairwise.nil
  | cons a t ih =>
    rcases hp with - | ⟨ha, ht⟩
    refine List.Pairwise.cons ?_ (ih (fun p hpm => hb p (List.mem_cons_of_mem a hpm)) ht)
    intro b hbmem
    have h1 := ha b hbmem
    have h2 := hb a (List.mem_cons_self a t)
    exact ⟨le_trans h2 (le_of_lt h1), le_of_lt h1⟩

/-- C9: for every text and every pattern-match list (the `re` module guarantees each
match satisfies `0 ≤ start ≤ end ≤ len(text)`), the protected sections returned by
`find_protected_sections` are intervals contained in `[0, text.length]`, listed in
increasing order of start, and pairwise disjoint — each section ends at or before
the next one starts. -/
theorem find_protected_sections_disjoint_sorted (matcher : List Char → List (ℕ × ℕ))
    (enabled : Bool) (text : List Char) (ctx : ℕ)
    (hm : ∀ p ∈ matcher text, p.1 ≤ p.2 ∧ p.2 ≤ text.length) :
    (∀ p ∈ find_protected_sections matcher enabled text ctx,
      p.1 ≤ p.2 ∧ p.2 ≤ text.length) ∧
    (find_protected_sections matcher enabled text ctx).Pairwise
      (fun a b => a.1 ≤ b.1 ∧ a.2 ≤ b.1) := by
  have h := find_protected_sections_ok matcher enabled text ctx hm
  exact ⟨h.1, pairwise_weaken (fun p hpm => (h.1 p hpm).1) h.2⟩

theorem find_protected_sections_disjoint_sorted_witness :
    (find_protected_sections (fun _ => [(2, 4), (30, 32)]) true
      "aaaaaaaaaabbbbbbbbbbccccccccccdddddddddd".toList 2).Pairwise
      (fun a b => a.1 ≤ b.1 ∧ a.2 ≤ b.1) :=
  (find_protected_sections_disjoint_sorted (fun _ => [(2, 4), (30, 32)]) true
    "aaaaaaaaaabbbbbbbbbbccccccccccdddddddddd".toList 2 (by decide)).2

theorem cutSection_length_le (l : List Char) (p : ℕ × ℕ) (h : p.1 ≤ p.2) :
    (cutSection l p).length ≤ l.length := by
  simp only [cutSection, List.length_append, List.length_take, List.length_drop]
  omega

theorem foldl_cut_length_le (secs : List (ℕ × ℕ)) :
    ∀ l : List Char, (∀ p ∈ secs, p.1 ≤ p.2) →
      (secs.foldl cutSection l).length ≤ l.length := by
  induction secs with
  | nil => intro l _; exact le_refl _
  | cons q qs ih =>
    intro l hall
    calc (qs.foldl cutSection (cutSection l q)).length
        ≤ (cutSection l q).length :=
          ih _ (fun p hp => hall p (List.mem_cons_of_mem q hp))
      _ ≤ l.length := cutSection_length_le l q (hall q (List.mem_cons_self q qs))

theorem collapseGo_length (l : List Char) :
    ∀ pending, (collapseGo l pending).length ≤ l.length + min pending 2 := by
  induction l with
  | nil => intro p; simp [collapseGo]
  | cons c cs ih =>
    intro p
    by_cases hc : c = '\n'
    · simp only [collapseGo, if_pos hc, List.length_cons]
      have h1 := ih (p + 1)
      omega
    · simp only [collapseGo, if_neg hc, List.length_append, List.length_replicate,
        List.length_cons]
      have h1 := ih 0
      omega

theorem dropWhile_length_le (p : Char → Bool) (l : List Char) :
    (l.dropWhile p).length ≤ l.length := by
  induction l with
  | nil => simp
  | cons a t ih =>
    by_cases h : p a
    · rw [List.dropWhile_cons_of_pos h]
      exact le_trans ih (by simp)
    · rw [List.dropWhile_cons_of_neg h]

theorem pyStrip_length_le (l : List Char) : (pyStrip l).length ≤ l.length := by
  simp only [pyStrip, List.length_reverse]
  calc ((l.dropWhile Char.isWhitespace).reverse.dropWhile Char.isWhitespace).length
      ≤ (l.dropWhile Char.isWhitespace).reverse.length := dropWhile_length_le _ _
    _ = (l.dropWhile Char.isWhitespace).length := List.length_reverse _
    _ ≤ l.length := dropWhile_length_le _ _

/-- C10: the removal report of `remove_protected_content` is internally consistent
and the text never grows: `final_length` is the length of the returned text,
`final_length ≤ original_length`, and when the `removed_chars` key is present it
equals `original_length - final_length` — the total shrinkage including newline
collapsing and stripping, not only the removed sections' characters. -/
theorem remove_protected_content_report_consistent
    (matcher : List Char → List (ℕ × ℕ)) (cfg : GuardrailConfig) (text : List Char)
    (hm : ∀ p ∈ matcher text, p.1 ≤ p.2 ∧ p.2 ≤ text.length) :
    (remove_protected_content matcher cfg text).final_length =
      (remove_protected_content matcher cfg text).text.length ∧
    (remove_protected_content matcher cfg text).final_length ≤
      (remove_protected_content matcher cfg text).original_length ∧
    ((remove_protected_content matcher cfg text).removed_chars = none ∨
      (remove_protected_content matcher cfg text).removed_chars =
        some (((remove_protected_content matcher cfg text).original_length : ℤ) -
          ((remove_protected_content matcher cfg text).final_length : ℤ))) := by
  unfold remove_protected_content
  by_cases hg : ¬cfg.enabled = true ∨ text = []
  · rw [if_pos hg]
    exact ⟨rfl, le_refl _, Or.inl rfl⟩
  · rw [if_neg hg]
    by_cases hs : find_protected_sections matcher cfg.enabled text
        (cfg.context_chars.getD 500) = []
    · rw [if_pos hs]
      exact ⟨rfl, le_refl _, Or.inl rfl⟩
    · rw [if_neg hs]
      refine ⟨rfl, ?_, Or.inr rfl⟩
      show (pyStrip (collapseNewlines ((find_protected_sections matcher cfg.enabled
        text (cfg.context_chars.getD 500)).reverse.foldl cutSection text))).length ≤
        text.length
      have hok := (find_protected_sections_ok matcher cfg.enabled text
        (cfg.context_chars.getD 500) hm).1
      have h1 : ((find_protected_sections matcher cfg.enabled text
          (cfg.context_chars.getD 500)).reverse.foldl cutSection text).length ≤
          text.length :=
        foldl_cut_length_le _ text (fun p hp => (hok p (List.mem_reverse.mp hp)).1)
      have h2 := collapseGo_length ((find_protected_sections matcher cfg.enabled text
        (cfg.context_chars.getD 500)).reverse.foldl cutSection text) 0
      have h3 := pyStrip_length_le (collapseNewlines ((find_protected_sections matcher
        cfg.enabled text (cfg.context_chars.getD 500)).reverse.foldl cutSection text))
      simp only [collapseNewlines] at h2 h3 ⊢
      omega

theorem remove_protected_content_report_consistent_witness :
    (remove_protected_content (fun _ => [(2, 4)]) ⟨true, some "remove".toList, some 2⟩
      "aaaaaaaaaabbbbbbbbbb".toList).final_length =
      (remove_protected_content (fun _ => [(2, 4)]) ⟨true, some "remove".toList, some 2⟩
        "aaaaaaaaaabbbbbbbbbb".toList).text.length ∧
    (remove_protected_content (fun _ => [(2, 4)]) ⟨true, some "remove".toList, some 2⟩
      "aaaaaaaaaabbbbbbbbbb".toList).final_length ≤
      (remove_protected_content (fun _ => [(2, 4)]) ⟨true, some "remove".toList, some 2⟩
        "aaaaaaaaaabbbbbbbbbb".toList).original_length ∧
    ((remove_protected_content (fun _ => [(2, 4)]) ⟨true, some "remove".toList, some 2⟩
      "aaaaaaaaaabbbbbbbbbb".toList).removed_chars = none ∨
      (remove_protected_content (fun _ => [(2, 4)]) ⟨true, some "remove".toList, some 2⟩
        "aaaaaaaaaabbbbbbbbbb".toList).removed_chars =
        some (((remove_protected_content (fun _ => [(2, 4)])
            ⟨true, some "remove".toList, some 2⟩
            "aaaaaaaaaabbbbbbbbbb".toList).original_length : ℤ) -
          ((remove_protected_content (fun _ => [(2, 4)])
            ⟨true, some "remove".toList, some 2⟩
            "aaaaaaaaaabbbbbbbbbb".toList).final_length : ℤ))) :=
  remove_protected_content_report_consistent (fun _ => [(2, 4)])
    ⟨true, some "remove".toList, some 2⟩ "aaaaaaaaaabbbbbbbbbb".toList (by decide)

theorem pySplitAux_sep (b : List Char) : ∀ (a : List Char) (acc : List Char),
    pySplitAux (a ++ ' ' :: b) acc = pySplitAux a acc ++ pySplitAux b [] := by
  have hws : (' ' : Char).isWhitespace = true := by decide
  intro a
  induction a with
  | nil =>
    intro acc
    by_cases hacc : acc = []
    · subst hacc
      simp [pySplitAux, hws]
    · simp [pySplitAux, hws, hacc]
  | cons c cs ih =>
    intro acc
    by_cases hc : c.isWhitespace
    · by_cases hacc : acc = []
      · subst hacc
        simp [pySplitAux, hc, ih]
      · simp [pySplitAux, hc, hacc, ih]
    · simp [pySplitAux, hc, ih]

theorem pyLower_joinSep (l : List (List Char)) :
    pyLower (joinSep [' '] l) = joinSep [' '] (l.map pyLower) := by
  have hsp : Char.toLower ' ' = ' ' := by decide
  induction l with
  | nil => rfl
  | cons x t ih =>
    cases t with
    | nil => rfl
    | cons y u =>
      simp only [joinSep, List.map_cons] at ih ⊢
      simp only [pyLower, List.map_append, List.map_cons, List.map_nil, hsp] at ih ⊢
      rw [ih]

theorem pySplit_joinSep (l : List (List Char)) :
    pySplit (joinSep [' '] l) = (l.map pySplit).flatten := by
  induction l with
  | nil => rfl
  | cons x t ih =>
    cases t with
    | nil => simp [joinSep]
    | cons y u =>
      simp only [joinSep, List.map_cons, List.flatten_cons] at ih ⊢
      rw [List.append_assoc, List.singleton_append]
      rw [show pySplit (x ++ ' ' :: joinSep [' '] (y :: u)) =
        pySplit x ++ pySplit (joinSep [' '] (y :: u)) from pySplitAux_sep _ x []]
      rw [show pySplit (joinSep [' '] (y :: u)) =
        (pySplit y :: List.map pySplit u).flatten from ih, List.flatten_cons]

theorem join_replicate_length (w : List (List Char)) (m : ℕ) :
    ((List.replicate m w).flatten).length = m * w.length := by
  induction m with
  | zero => simp
  | succ m' ih =>
    rw [List.replicate_succ, List.flatten_cons, List.length_append, ih]
    ring

theorem join_replicate_drop_step (w : List (List Char)) (m t : ℕ) (hm : 1 ≤ m) :
    ((List.replicate m w).flatten).drop (w.length + t) =
    ((List.replicate (m - 1) w).flatten).drop t := by
  obtain ⟨m', rfl⟩ : ∃ m', m = m' + 1 := ⟨m - 1, by omega⟩
  rw [List.replicate_succ, List.flatten_cons]
  rw [List.drop_append_eq_append_drop]
  rw [List.drop_eq_nil_of_le (by omega)]
  simp

theorem join_replicate_drop_phase (w : List (List Char)) :
    ∀ (q m t : ℕ), q ≤ m →
      ((List.replicate m w).flatten).drop (q * w.length + t) =
      ((List.replicate (m - q) w).flatten).drop t := by
  intro q
  induction q with
  | zero => intro m t _; simp
  | succ q' ih =>
    intro m t hqm
    have h1 : (q' + 1) * w.length + t = q' * w.length + (w.length + t) := by ring
    rw [h1, ih m (w.length + t) (by omega),
      join_replicate_drop_step w (m - q') t (by omega)]
    have h2 : m - q' - 1 = m - (q' + 1) := by omega
    rw [h2]

theorem take3_drop_join_replicate_mono (w : List (List Char)) (j₁ j₂ r : ℕ)
    (h3 : r + 3 ≤ j₁ * w.length) (hj : j₁ ≤ j₂) :
    (((List.replicate j₂ w).flatten).drop r).take 3 =
    (((List.replicate j₁ w).flatten).drop r).take 3 := by
  have hsplit : List.replicate j₂ w = List.replicate j₁ w ++ List.replicate (j₂ - j₁) w := by
    rw [← List.replicate_add]
    congr 1
    omega
  rw [hsplit, List.flatten_append, List.drop_append_eq_append_drop,
    List.take_append_of_le_length]
  rw [List.length_drop, join_replicate_length]
  omega

theorem take3_drop_phase (w : List (List Char)) (hk : 0 < w.length) (m i : ℕ)
    (h : i + 3 ≤ m * w.length) :
    (((List.replicate m w).flatten).drop i).take 3 =
    (((List.replicate 3 w).flatten).drop (i % w.length)).take 3 := by
  have hrk : i % w.length < w.length := Nat.mod_lt _ hk
  have hqm : i / w.length ≤ m := by
    by_contra hcon
    push_neg at hcon
    have h1 : (m + 1) * w.length ≤ (i / w.length) * w.length :=
      Nat.mul_le_mul_right _ (by omega)
    have h2 : (i / w.length) * w.length ≤ i := Nat.div_mul_le_self i w.length
    have h3 : (m + 1) * w.length = m * w.length + w.length := by ring
    omega
  have hi : i = (i / w.length) * w.length + i % w.length := by
    rw [Nat.mul_comm]
    exact (Nat.div_add_mod i w.length).symm
  have hr3 : i % w.length + 3 ≤ (m - i / w.length) * w.length := by
    have hsub : (m - i / w.length) * w.length = m * w.length - (i / w.length) * w.length :=
      Nat.sub_mul m (i / w.length) w.length
    omega
  have hdrop := join_replicate_drop_phase w (i / w.length) m (i % w.length) hqm
  rw [← hi] at hdrop
  rw [hdrop]
  rcases le_total (m - i / w.length) 3 with hle | hle
  · exact (take3_drop_join_replicate_mono w (m - i / w.length) 3 (i % w.length)
      hr3 hle).symm
  · exact take3_drop_join_replicate_mono w 3 (m - i / w.length) (i % w.length)
      (by omega) hle

theorem trigrams_replicate_dedup_le (w : List (List Char)) (hk : 0 < w.length)
    (m : ℕ) :
    (pyTrigrams ((List.replicate m w).flatten)).dedup.length ≤ w.length := by
  classical
  have hsub : (pyTrigrams ((List.replicate m w).flatten)).toFinset ⊆
      (Finset.range w.length).image
        (fun r => (((List.replicate 3 w).flatten).drop r).take 3) := by
    intro x hx
    rw [List.mem_toFinset] at hx
    simp only [pyTrigrams, List.mem_map, List.mem_range] at hx
    obtain ⟨i, hi, hxe⟩ := hx
    rw [join_replicate_length] at hi
    have h3 : i + 3 ≤ m * w.length := by omega
    rw [Finset.mem_image]
    refine ⟨i % w.length, Finset.mem_range.mpr (Nat.mod_lt _ hk), ?_⟩
    rw [← hxe, take3_drop_phase w hk m i h3]
  have hcard := Finset.card_le_card hsub
  rw [List.card_toFinset] at hcard
  calc (pyTrigrams ((List.replicate m w).flatten)).dedup.length
      ≤ ((Finset.range w.length).image _).card := hcard
    _ ≤ (Finset.range w.length).card := Finset.card_image_le
    _ = w.length := Finset.card_range _

/-- C7: the repetition ratio is `0.0` for texts with fewer than 10 whitespace
tokens, and otherwise equals one minus the number of distinct 3-grams of
lower-cased tokens over the total number of 3-grams; consequently a text made of
any sentence with at least one token repeated 100 times (the copies separated by a
space) has repetition ratio at least `0.9`. -/
theorem repetition_ratio_spec :
    (∀ t : List Char, (pySplit (pyLower t)).length < 10 →
      calculate_repetition_ratio t = 0) ∧
    (∀ t : List Char, 10 ≤ (pySplit (pyLower t)).length →
      calculate_repetition_ratio t =
        1 - (((pyTrigrams (pySplit (pyLower t))).dedup.length : ℚ) /
          ((pyTrigrams (pySplit (pyLower t))).length : ℚ))) ∧
    (∀ s : List Char, pySplit (pyLower s) ≠ [] →
      9 / 10 ≤ calculate_repetition_ratio (joinSep [' '] (List.replicate 100 s))) := by
  refine ⟨?_, ?_, ?_⟩
  · intro t ht
    simp [calculate_repetition_ratio, ht]
  · intro t ht
    have h1 : ¬ ((pySplit (pyLower t)).length < 10) := not_lt.mpr ht
    have h2 : pyTrigrams (pySplit (pyLower t)) ≠ [] := by
      have hlen : (pyTrigrams (pySplit (pyLower t))).length =
          (pySplit (pyLower t)).length - 2 := by
        simp [pyTrigrams]
      intro hcon
      rw [hcon] at hlen
      simp at hlen
      omega
    simp [calculate_repetition_ratio, h1, h2]
  · intro s hs
    have hk : 0 < (pySplit (pyLower s)).length := List.length_pos.mpr hs
    have hwords : pySplit (pyLower (joinSep [' '] (List.replicate 100 s))) =
        (List.replicate 100 (pySplit (pyLower s))).flatten := by
      rw [pyLower_joinSep, List.map_replicate, pySplit_joinSep, List.map_replicate]
    have hlen : ((List.replicate 100 (pySplit (pyLower s))).flatten).length =
        100 * (pySplit (pyLower s)).length := join_replicate_length _ _
    have hnot : ¬ (((List.replicate 100 (pySplit (pyLower s))).flatten).length < 10) := by
      rw [hlen]
      omega
    have htglen : (pyTrigrams ((List.replicate 100 (pySplit (pyLower s))).flatten)).length =
        100 * (pySplit (pyLower s)).length - 2 := by
      rw [show ∀ ws : List (List Char), (pyTrigrams ws).length = ws.length - 2 from
        fun ws => by simp [pyTrigrams], hlen]
    have htgne : pyTrigrams ((List.replicate 100 (pySplit (pyLower s))).flatten) ≠ [] := by
      intro hcon
      rw [hcon] at htglen
      simp at htglen
      omega
    have hd := trigrams_replicate_dedup_le (pySplit (pyLower s)) hk 100
    simp only [calculate_repetition_ratio]
    rw [hwords, if_neg hnot, if_neg htgne, htglen]
    have hdennat : (98 : ℕ) ≤ 100 * (pySplit (pyLower s)).length - 2 := by omega
    have hden : (0 : ℚ) < ((100 * (pySplit (pyLower s)).length - 2 : ℕ) : ℚ) := by
      have hcast : ((98 : ℕ) : ℚ) ≤ ((100 * (pySplit (pyLower s)).length - 2 : ℕ) : ℚ) :=
        Nat.cast_le.mpr hdennat
      have h98 : ((98 : ℕ) : ℚ) = (98 : ℚ) := by norm_num
      linarith
    have hfrac :
        ((pyTrigrams ((List.replicate 100 (pySplit (pyLower s))).flatten)).dedup.length : ℚ) /
          ((100 * (pySplit (pyLower s)).length - 2 : ℕ) : ℚ) ≤ 1 / 10 := by
      have hdk : ((pyTrigrams ((List.replicate 100 (pySplit
          (pyLower s))).flatten)).dedup.length : ℚ) ≤ ((pySplit (pyLower s)).length : ℚ) :=
        Nat.cast_le.mpr hd
      have h2 : ((pySplit (pyLower s)).length : ℚ) /
          ((100 * (pySplit (pyLower s)).length - 2 : ℕ) : ℚ) ≤ 1 / 10 := by
        rw [div_le_div_iff hden (by norm_num)]
        have hnat : 10 * (pySplit (pyLower s)).length ≤
            100 * (pySplit (pyLower s)).length - 2 := by omega
        calc ((pySplit (pyLower s)).length : ℚ) * 10 =
            ((10 * (pySplit (pyLower s)).length : ℕ) : ℚ) := by push_cast; ring
          _ ≤ ((100 * (pySplit (pyLower s)).length - 2 : ℕ) : ℚ) := Nat.cast_le.mpr hnat
          _ = 1 * ((100 * (pySplit (pyLower s)).length - 2 : ℕ) : ℚ) := by ring
      calc ((pyTrigrams ((List.replicate 100 (pySplit
            (pyLower s))).flatten)).dedup.length : ℚ) /
            ((100 * (pySplit (pyLower s)).length - 2 : ℕ) : ℚ)
          ≤ ((pySplit (pyLower s)).length : ℚ) /
            ((100 * (pySplit (pyLower s)).length - 2 : ℕ) : ℚ) :=
            (div_le_div_right hden).mpr hdk
        _ ≤ 1 / 10 := h2
    linarith

theorem repetition_ratio_spec_witness :
    calculate_repetition_ratio "one two".toList = 0 ∧
    9 / 10 ≤ calculate_repetition_ratio
      (joinSep [' '] (List.replicate 100 "hello world.".toList)) := by
  constructor
  · exact repetition_ratio_spec.1 "one two".toList (by decide)
  · exact repetition_ratio_spec.2.2 "hello world.".toList (by decide)

end Shardwise
